import Mathlib

/-!
# Verification of the airgapped-rpm-repo update calculator

Shallow embedding of `src/update_calculator/rpm_utils.py` and
`src/update_calculator/calculator.py`, together with proofs settling the
frozen claims about the natural-language specification.

Modelling conventions:
* Python strings are Lean `String`s; where character-level processing
  happens, segments are `List Char` (Python builds them with `+=`, modelled
  by list append).  `str.isdigit` / `str.isalpha` are modelled with the
  ASCII `Char.isDigit` / `Char.isAlpha` (the repository only ever feeds
  ASCII package metadata through these paths).
* Python `int(s)` on a string is modelled by `pyInt` (optional sign
  followed by decimal digits); a failing conversion — Python raises
  `ValueError` — is `none`, and functions that may raise return `Option`.
* JSON dictionaries with a known schema (`{"epoch": .., "version": ..,
  "release": ..}`) are records of `Option` fields; a missing key is
  `none` and `dict.get(k, d)` is `Option.getD`.  JSON values for `epoch`
  may be either integers or strings (`FieldVal`).
* `re.match` with the two hand-written NEVRA patterns is modelled by an
  explicit backtracking matcher (`goE` / `goNE`) that reproduces the
  leftmost-greedy semantics of Python's engine, including the fact that
  `.` does not match a newline and `$` also matches just before one
  trailing newline.
-/

namespace RpmUtils

/-- A segment of a version string: a maximal run of digits or letters
(`_split_version_string` builds these with `current += char`). -/
abbrev Seg := List Char

/-- Python `str.isdigit` on a segment: non-empty and all digits. -/
def pyIsDigit (s : Seg) : Bool := !s.isEmpty && s.all Char.isDigit

/-- Python `str.isalpha` on a segment: non-empty and all letters. -/
def pyIsAlpha (s : Seg) : Bool := !s.isEmpty && s.all Char.isAlpha

/-- Numeric value of a digit character. -/
def digitVal (c : Char) : Nat := c.toNat - 48

/-- Value of a run of decimal digits, most significant first:
models Python `int(s)` on an all-digit string. -/
def segToNat (s : Seg) : Nat := s.foldl (fun a c => a * 10 + digitVal c) 0

/-- The character-scanning loop of `_split_version_string`
(`rpm_utils.py` lines 104-131): `current` accumulates the run being
built, `cid` is the Python `current_is_digit` tri-state. -/
def splitLoop : List Char → List Char → Option Bool → List Seg
  | [], current, _ => if current.isEmpty then [] else [current]
  | c :: rest, current, cid =>
    if c.isDigit then
      if cid == some false && !current.isEmpty then
        current :: splitLoop rest [c] (some true)
      else
        splitLoop rest (current ++ [c]) (some true)
    else if c.isAlpha then
      if cid == some true && !current.isEmpty then
        current :: splitLoop rest [c] (some false)
      else
        splitLoop rest (current ++ [c]) (some false)
    else
      if current.isEmpty then splitLoop rest [] none
      else current :: splitLoop rest [] none

/-- `_split_version_string(version)` from `rpm_utils.py`: split a version
string into comparable segments; separators are discarded. -/
def _split_version_string (version : String) : List Seg :=
  splitLoop version.data [] none

/-- Lexicographic three-way comparison of two character lists: models the
Python string comparison `s1 < s2` / `s1 > s2` used on alphabetic
segments (code-point order, shorter prefix sorts first). -/
def cmpAlpha : List Char → List Char → Int
  | [], [] => 0
  | [], _ :: _ => -1
  | _ :: _, [] => 1
  | a :: as, b :: bs => if a < b then -1 else if b < a then 1 else cmpAlpha as bs

/-- One iteration of the pairwise segment walk in
`_compare_version_strings` (lines 146-164): result `0` means the loop
continues, any other value is returned immediately. -/
def cmpSeg (s1 s2 : Seg) : Int :=
  if pyIsDigit s1 && pyIsDigit s2 then
    if segToNat s1 < segToNat s2 then -1
    else if segToNat s2 < segToNat s1 then 1
    else 0
  else if pyIsAlpha s1 && pyIsAlpha s2 then
    cmpAlpha s1 s2
  else if pyIsDigit s1 then 1
  else -1

/-- The `for s1, s2 in zip(segments1, segments2)` loop: returns the first
non-zero segment comparison, `none` when every zipped pair ties. -/
def walkPairs : List (Seg × Seg) → Option Int
  | [] => none
  | (s1, s2) :: rest =>
    let c := cmpSeg s1 s2
    if c = 0 then walkPairs rest else some c

/-- `_compare_version_strings(v1, v2)` from `rpm_utils.py` lines 134-172:
RPM-style comparison of two version strings. -/
def _compare_version_strings (v1 v2 : String) : Int :=
  let segments1 := _split_version_string v1
  let segments2 := _split_version_string v2
  match walkPairs (segments1.zip segments2) with
  | some c => c
  | none =>
    if segments1.length < segments2.length then -1
    else if segments2.length < segments1.length then 1
    else 0

/-- A JSON scalar as it appears in manifest / cache dictionaries: the
code tolerates both integers and strings for `epoch`. -/
inductive FieldVal where
  | int : Int → FieldVal
  | str : String → FieldVal
deriving DecidableEq

/-- Python `int(s)` restricted to canonical integer literals: an optional
sign followed by at least one decimal digit (`none` models the
`ValueError` raised otherwise). -/
def pyInt (s : String) : Option Int :=
  match s.data with
  | [] => none
  | c :: rest =>
    if c = '-' then
      if !rest.isEmpty && rest.all Char.isDigit then some (-(segToNat rest : Int)) else none
    else if c = '+' then
      if !rest.isEmpty && rest.all Char.isDigit then some (segToNat rest : Int) else none
    else
      if (c :: rest).all Char.isDigit then some (segToNat (c :: rest) : Int) else none

/-- The epoch-normalisation idiom appearing in `compare_versions`,
`RPMVersion.__post_init__` and `format_evr`: the sentinels `"(none)"`,
`""` and `"0"` collapse to `0`, any other string goes through `int`. -/
def normalizeEpoch : FieldVal → Option Int
  | .int n => some n
  | .str s => if s = "(none)" || s = "" || s = "0" then some 0 else pyInt s

/-- A `{"epoch": .., "version": .., "release": ..}` dictionary as read by
`compare_versions`; `none` fields model missing keys. -/
structure VDict where
  epoch : Option FieldVal
  version : Option String
  release : Option String
deriving DecidableEq

/-- `compare_versions(installed, available)` from `rpm_utils.py` lines
175-215; `none` models an uncaught `ValueError` from `int(epoch)`. -/
def compare_versions (installed available : VDict) : Option Int :=
  match normalizeEpoch (installed.epoch.getD (.int 0)),
        normalizeEpoch (available.epoch.getD (.int 0)) with
  | some i_epoch, some a_epoch =>
    if i_epoch < a_epoch then some (-1)
    else if a_epoch < i_epoch then some 1
    else
      let version_cmp :=
        _compare_version_strings (installed.version.getD "0") (available.version.getD "0")
      if version_cmp = 0 then
        some (_compare_version_strings (installed.release.getD "0") (available.release.getD "0"))
      else some version_cmp
  | _, _ => none

/-- `is_update_available(installed, available)` from `rpm_utils.py`
lines 303-314. -/
def is_update_available (installed available : VDict) : Option Bool :=
  (compare_versions installed available).map (fun c => c < 0)

/-- Decimal rendering of a natural number, most significant digit first:
models Python `str(n)` for `n ≥ 0` (`str(0) = "0"`). -/
def digChar (n : Nat) : Char :=
  match n with
  | 0 => '0' | 1 => '1' | 2 => '2' | 3 => '3' | 4 => '4'
  | 5 => '5' | 6 => '6' | 7 => '7' | 8 => '8' | _ => '9'

/-- Digit list of `n` in base 10, most significant first, with explicit
fuel so that the kernel can evaluate it (the fuel never runs out when it
starts at `n + 1`). -/
def natStrAux : Nat → Nat → List Char
  | 0, _ => []
  | f + 1, n =>
    if n < 10 then [digChar n]
    else natStrAux f (n / 10) ++ [digChar (n % 10)]

/-- Digit list of `n` in base 10, most significant first. -/
def natStrCore (n : Nat) : List Char := natStrAux (n + 1) n

/-- Python `str` on an `int` (f-string formatting of an integer). -/
def pyIntStr (n : Int) : List Char :=
  if n < 0 then '-' :: natStrCore n.natAbs else natStrCore n.toNat

/-- Python `str` on an `int | str` value. -/
def pyStrF : FieldVal → String
  | .int n => String.mk (pyIntStr n)
  | .str s => s

/-- `RPMVersion` from `rpm_utils.py` (after `__post_init__` the epoch is
an integer). -/
structure RPMVersion where
  name : String
  epoch : Int
  version : String
  release : String
  arch : String
deriving DecidableEq

/-- `RPMVersion.nevra`: `f"{name}-{epoch}:{version}-{release}.{arch}"`. -/
def RPMVersion.nevra (v : RPMVersion) : String :=
  String.mk (v.name.data ++ '-' :: pyIntStr v.epoch ++ ':' :: v.version.data
    ++ '-' :: v.release.data ++ '.' :: v.arch.data)

/-- `RPMVersion.nvra`: `f"{name}-{version}-{release}.{arch}"`. -/
def RPMVersion.nvra (v : RPMVersion) : String :=
  String.mk (v.name.data ++ '-' :: v.version.data ++ '-' :: v.release.data
    ++ '.' :: v.arch.data)

/-- `RPMVersion.evr`: `f"{epoch}:{version}-{release}"` — note the source
includes the epoch unconditionally, even when it is `0`. -/
def RPMVersion.evr (v : RPMVersion) : String :=
  String.mk (pyIntStr v.epoch ++ ':' :: v.version.data ++ '-' :: v.release.data)

/-- `RPMVersion.__lt__` (`rpm_utils.py` lines 68-87).  `none` models the
`NotImplemented` return for operands with different name or arch, which
Python's comparison machinery turns into a `TypeError` instead of a
boolean. -/
def RPMVersion.lt (self other : RPMVersion) : Option Bool :=
  if self.name ≠ other.name ∨ self.arch ≠ other.arch then none
  else if self.epoch ≠ other.epoch then some (decide (self.epoch < other.epoch))
  else
    let version_cmp := _compare_version_strings self.version other.version
    if version_cmp ≠ 0 then some (decide (version_cmp < 0))
    else some (decide (_compare_version_strings self.release other.release < 0))

/-- `format_evr(epoch, version, release)` from `rpm_utils.py` lines
317-334; `none` models the `ValueError` from `int(epoch)`. -/
def format_evr (epoch : FieldVal) (version release : String) : Option String :=
  match normalizeEpoch epoch with
  | none => none
  | some e =>
    if 0 < e then some (String.mk (pyIntStr e) ++ ":" ++ version ++ "-" ++ release)
    else some (version ++ "-" ++ release)

/-! ## The NEVRA parser

`parse_nevra` matches `^(.+)-(\d+):([^-]+)-([^.]+)\.(.+)$` and then
`^(.+)-([^-]+)-([^.]+)\.(.+)$` with Python's leftmost-greedy backtracking
semantics.  The groups after the name's separator are deterministic:
`(\d+):` must be the maximal digit run followed by `:`, `([^-]+)-` stops
at the first `-`, `([^.]+)\.` stops at the first `.`, and `(.+)$` takes
the rest except that `.` never matches a newline and `$` also matches
just before one trailing newline.  The leading greedy `(.+)-` is the
backtracking search `goE`/`goNE`: it prefers the rightmost viable `-`
split, and `(.+)` cannot span a newline. -/

/-- Maximal prefix of decimal digits plus the remainder (`(\d+)` with the
forced follow-up character). -/
def takeDigitRun : List Char → List Char × List Char
  | [] => ([], [])
  | c :: rest =>
    if c.isDigit then
      let p := takeDigitRun rest
      (c :: p.1, p.2)
    else ([], c :: rest)

/-- Split at the first occurrence of `sep`: models `([^X]+)X` group
matching (the group may be empty here; emptiness is checked by the
callers). -/
def splitAtFirst (sep : Char) : List Char → Option (List Char × List Char)
  | [] => none
  | c :: rest =>
    if c = sep then some ([], rest)
    else
      match splitAtFirst sep rest with
      | some p => some (c :: p.1, p.2)
      | none => none

/-- Match `(.+)$` against the remainder: one or more non-newline
characters, where `$` also matches just before a single trailing
newline. -/
def matchDotPlusEnd (l : List Char) : Option (List Char) :=
  if l.contains '\n' then
    if l.getLast? = some '\n' && !l.dropLast.contains '\n' && !l.dropLast.isEmpty then
      some l.dropLast
    else none
  else if l.isEmpty then none else some l

/-- Match `(\d+):([^-]+)-([^.]+)\.(.+)$` against the text after the
chosen name separator (the with-epoch pattern's tail). -/
def tryTailE (name : List Char) (t : List Char) : Option RPMVersion :=
  if (takeDigitRun t).1.isEmpty then none
  else
    match (takeDigitRun t).2 with
    | ':' :: r2 =>
      match splitAtFirst '-' r2 with
      | some q =>
        if q.1.isEmpty then none
        else
          match splitAtFirst '.' q.2 with
          | some w =>
            if w.1.isEmpty then none
            else
              match matchDotPlusEnd w.2 with
              | some arch =>
                some ⟨String.mk name, Int.ofNat (segToNat (takeDigitRun t).1), String.mk q.1,
                  String.mk w.1, String.mk arch⟩
              | none => none
          | none => none
      | none => none
    | _ => none

/-- Match `([^-]+)-([^.]+)\.(.+)$` against the text after the chosen name
separator (the without-epoch pattern's tail; epoch defaults to 0). -/
def tryTailNE (name : List Char) (t : List Char) : Option RPMVersion :=
  match splitAtFirst '-' t with
  | some q =>
    if q.1.isEmpty then none
    else
      match splitAtFirst '.' q.2 with
      | some w =>
        if w.1.isEmpty then none
        else
          match matchDotPlusEnd w.2 with
          | some arch =>
            some ⟨String.mk name, 0, String.mk q.1, String.mk w.1, String.mk arch⟩
          | none => none
      | none => none
  | none => none

/-- Greedy search for the `(.+)-` split of the with-epoch pattern:
deeper recursive calls try longer names first, so the rightmost viable
separator wins; the name group must be non-empty and `.` cannot match a
newline. -/
def goE : List Char → List Char → Option RPMVersion
  | _, [] => none
  | acc, c :: rest =>
    match goE (acc ++ [c]) rest with
    | some r => some r
    | none =>
      if c = '-' && !acc.isEmpty && !acc.contains '\n' then tryTailE acc rest
      else none

/-- Greedy search for the `(.+)-` split of the without-epoch pattern. -/
def goNE : List Char → List Char → Option RPMVersion
  | _, [] => none
  | acc, c :: rest =>
    match goNE (acc ++ [c]) rest with
    | some r => some r
    | none =>
      if c = '-' && !acc.isEmpty && !acc.contains '\n' then tryTailNE acc rest
      else none

/-- `parse_nevra(nevra_string)` from `rpm_utils.py` lines 218-266: try
the with-epoch pattern first, then the without-epoch pattern. -/
def parse_nevra (nevra_string : String) : Option RPMVersion :=
  match goE [] nevra_string.data with
  | some r => some r
  | none => goNE [] nevra_string.data

end RpmUtils

namespace Calculator

open RpmUtils

/-- `PackageUpdate` from `calculator.py` (all fields are strings; the
epochs are stringified with `str(...)` at construction time). -/
structure PackageUpdate where
  name : String
  arch : String
  channel : String
  installed_epoch : String
  installed_version : String
  installed_release : String
  available_epoch : String
  available_version : String
  available_release : String
deriving DecidableEq

/-- `PackageUpdate.installed_evr` (via `format_evr`). -/
def PackageUpdate.installed_evr (u : PackageUpdate) : Option String :=
  format_evr (.str u.installed_epoch) u.installed_version u.installed_release

/-- `PackageUpdate.available_evr` (via `format_evr`). -/
def PackageUpdate.available_evr (u : PackageUpdate) : Option String :=
  format_evr (.str u.available_epoch) u.available_version u.available_release

/-- `UpdateResult` from `calculator.py`. -/
structure UpdateResult where
  host_id : String
  profile : String
  os_id : String
  os_version : String
  computed_at : String
  updates : List PackageUpdate
  errors : List String
deriving DecidableEq

/-- `UpdateResult.update_count` = `len(self.updates)`. -/
def UpdateResult.update_count (r : UpdateResult) : Nat := r.updates.length

/-- One element of a manifest's `packages` list, typed by the schema in
the spec's §6 (`name`/`arch`/`version`/`release` strings, `epoch` a
string or integer); `none` models a missing key. -/
structure PkgEntry where
  name : Option String
  arch : Option String
  epoch : Option FieldVal
  version : Option String
  release : Option String
deriving DecidableEq

/-- A host manifest as read by `compute_updates_for_host`: `os_id` and
`os_version` stand for `manifest.get("os_release", {}).get("id")` and
`...get("version")` (so `none` covers both a missing `os_release` object
and a missing inner key), `packages` for `manifest.get("packages", [])`. -/
structure Manifest where
  os_id : Option String
  os_version : Option String
  packages : List PkgEntry
deriving DecidableEq

/-- One available-package record of a repository `.package_cache.json`
(the three keys `compute_updates_for_host` reads, missing keys are
`none`). -/
abbrev ChannelMap := List (String × VDict)

/-- The read-only file system the calculator sees: repository
`.package_cache.json` contents keyed by the `"{profile}/{arch}/{channel}"`
cache key (`none` = file absent), and manifests keyed by `host_id`
(`none` = `manifest.json` absent). -/
structure Filesystem where
  cacheFile : String → Option ChannelMap
  manifestFile : String → Option Manifest

/-- The mutable state of one `UpdateCalculator` instance: `_repo_cache`
maps cache keys to heap addresses, and the heap records which mapping
object lives at each address (Python object identity made explicit). -/
structure CalcState where
  nextAddr : Nat
  repo_cache : List (String × Nat)
  heap : List (Nat × ChannelMap)
deriving DecidableEq

/-- Allocate a fresh mapping object on the heap (models `json.load`
creating a new dict, or the `return {}` literal). -/
def alloc (st : CalcState) (v : ChannelMap) : Nat × CalcState :=
  (st.nextAddr,
    { nextAddr := st.nextAddr + 1, repo_cache := st.repo_cache,
      heap := (st.nextAddr, v) :: st.heap })

/-- The mapping object stored at an address. -/
def deref (st : CalcState) (addr : Nat) : ChannelMap :=
  (st.heap.lookup addr).getD []

/-- Python `s.split(sep)` for a one-character separator: always returns
at least one (possibly empty) part. -/
def pySplit (sep : Char) : List Char → List (List Char)
  | [] => [[]]
  | c :: rest =>
    match pySplit sep rest with
    | p :: ps => if c = sep then [] :: p :: ps else (c :: p) :: ps
    | [] => [[]]

/-- `UpdateCalculator.get_profile_for_os` (`calculator.py` lines
133-150).  `os_version.split(".")[0]` is the head of `pySplit`, which
always exists. -/
def get_profile_for_os (os_id os_version : String) : String :=
  let major_version := String.mk ((pySplit '.' os_version.data).headD [])
  if os_id = "rhel" ∨ os_id = "centos" ∨ os_id = "rocky" ∨ os_id = "almalinux" then
    "rhel" ++ major_version
  else
    "rhel" ++ major_version

/-- `UpdateCalculator.load_repo_packages` (`calculator.py` lines
172-202): memoized per cache key; a hit returns the stored object, a
miss loads and caches the file's mapping, and a missing file returns a
fresh empty mapping without caching it. -/
def load_repo_packages (fs : Filesystem) (st : CalcState)
    (profile arch channel : String) : Nat × CalcState :=
  let cache_key := profile ++ "/" ++ arch ++ "/" ++ channel
  match st.repo_cache.lookup cache_key with
  | some addr => (addr, st)
  | none =>
    match fs.cacheFile cache_key with
    | some packages =>
      let p := alloc st packages
      (p.1, { nextAddr := p.2.nextAddr, heap := p.2.heap,
              repo_cache := (cache_key, p.1) :: p.2.repo_cache })
    | none => alloc st []

/-- The body of the inner `for pkg in installed_packages` loop of
`compute_updates_for_host` (`calculator.py` lines 253-290): skip entries
without a truthy name/arch or without an available counterpart, compare,
and append a `PackageUpdate` exactly when an update is available.
`none` models an uncaught `ValueError` from epoch parsing. -/
def processPkg (channel : String) (repo : ChannelMap)
    (acc : List PackageUpdate) (pkg : PkgEntry) : Option (List PackageUpdate) :=
  match pkg.name, pkg.arch with
  | some name, some arch =>
    if name = "" ∨ arch = "" then some acc
    else
      let key := name ++ "." ++ arch
      match repo.lookup key with
      | none => some acc
      | some available =>
        let i_epoch := pkg.epoch.getD (.str "0")
        let i_version := pkg.version.getD "0"
        let i_release := pkg.release.getD "0"
        let a_epoch := available.epoch.getD (.str "0")
        let a_version := available.version.getD "0"
        let a_release := available.release.getD "0"
        let installed_info : VDict := ⟨some i_epoch, some i_version, some i_release⟩
        let available_info : VDict := ⟨some a_epoch, some a_version, some a_release⟩
        match is_update_available installed_info available_info with
        | none => none
        | some b =>
          if b then
            some (acc ++ [⟨name, arch, channel, pyStrF i_epoch, i_version, i_release,
              pyStrF a_epoch, a_version, a_release⟩])
          else some acc
  | _, _ => some acc

/-- The `for channel in ["baseos", "appstream"]` loop of
`compute_updates_for_host` (lines 245-290), threading the repo-cache
state; an empty loaded mapping (`if not repo_packages`) skips the
channel. -/
def processChannels (fs : Filesystem) (profile : String)
    (packages : List PkgEntry) :
    List String → CalcState → List PackageUpdate →
    Option (List PackageUpdate) × CalcState
  | [], st, acc => (some acc, st)
  | channel :: more, st, acc =>
    let p := load_repo_packages fs st profile "x86_64" channel
    let repo := deref p.2 p.1
    if repo.isEmpty then processChannels fs profile packages more p.2 acc
    else
      match packages.foldlM (processPkg channel repo) acc with
      | none => (none, p.2)
      | some acc2 => processChannels fs profile packages more p.2 acc2

/-- `UpdateCalculator.compute_updates_for_host` (`calculator.py` lines
204-292).  `now` is the timestamp taken at entry; the first component is
`none` when the computation raises. -/
def compute_updates_for_host (fs : Filesystem) (now : String)
    (st : CalcState) (host_id : String) : Option UpdateResult × CalcState :=
  match fs.manifestFile host_id with
  | none =>
    (some ⟨host_id, "unknown", "unknown", "unknown", now, [],
      ["Manifest not found for host: " ++ host_id]⟩, st)
  | some manifest =>
    let os_id := manifest.os_id.getD "unknown"
    let os_version := manifest.os_version.getD "unknown"
    let profile := get_profile_for_os os_id os_version
    let installed_packages := manifest.packages
    if installed_packages.isEmpty then
      (some ⟨host_id, profile, os_id, os_version, now, [],
        ["No packages found in manifest"]⟩, st)
    else
      let p := processChannels fs profile installed_packages
        ["baseos", "appstream"] st []
      match p.1 with
      | none => (none, p.2)
      | some ups =>
        (some ⟨host_id, profile, os_id, os_version, now, ups, []⟩, p.2)

/-- The installed (epoch, version, release) triple carried by a
`PackageUpdate`, viewed as a comparison dictionary (the epoch was
stringified with `str(...)` when the entry was built). -/
def installedDict (u : PackageUpdate) : RpmUtils.VDict :=
  ⟨some (.str u.installed_epoch), some u.installed_version, some u.installed_release⟩

/-- The available (epoch, version, release) triple carried by a
`PackageUpdate`, viewed as a comparison dictionary. -/
def availableDict (u : PackageUpdate) : RpmUtils.VDict :=
  ⟨some (.str u.available_epoch), some u.available_version, some u.available_release⟩

/-- The invariant claimed for every emitted update entry: comparing the
carried installed triple against the carried available triple is
strictly negative (the available EVR strictly exceeds the installed
one). -/
def UpdateOk (u : PackageUpdate) : Prop :=
  ∃ c, RpmUtils.compare_versions (installedDict u) (availableDict u) = some c ∧ c < 0

end Calculator

namespace Sample

open RpmUtils Calculator

/-- Sample repository cache mirroring `tests/conftest.py`
(`sample_repo_packages`). -/
def repoPackages : ChannelMap :=
  [("bash.x86_64", ⟨some (.str "0"), some "5.1.8", some "9.el9"⟩),
   ("kernel.x86_64", ⟨some (.str "0"), some "5.14.0", some "427.13.1.el9_4"⟩),
   ("openssl.x86_64", ⟨some (.str "1"), some "3.0.7", some "27.el9"⟩),
   ("httpd.x86_64", ⟨some (.str "0"), some "2.4.57", some "5.el9"⟩)]

/-- Sample manifest mirroring `tests/conftest.py` (`sample_manifest`). -/
def manifest : Manifest :=
  ⟨some "rhel", some "9.6",
   [⟨some "bash", some "x86_64", some (.str "0"), some "5.1.8", some "6.el9"⟩,
    ⟨some "kernel", some "x86_64", some (.str "0"), some "5.14.0", some "427.13.1.el9_4"⟩,
    ⟨some "openssl", some "x86_64", some (.str "1"), some "3.0.7", some "24.el9"⟩]⟩

/-- Sample file system: one baseos cache file for `rhel9/x86_64`, one
manifest for `test-host-001`. -/
def fs : Filesystem :=
  ⟨fun key => if key = "rhel9/x86_64/baseos" then some repoPackages else none,
   fun host => if host = "test-host-001" then some manifest else none⟩

/-- A freshly constructed calculator's state: empty memo cache, empty
heap. -/
def st0 : CalcState := ⟨0, [], []⟩

/-- The `UpdateResult` computed for the sample host: bash and openssl
have updates in baseos, kernel is identical. -/
def wRes : UpdateResult :=
  ⟨"test-host-001", "rhel9", "rhel", "9.6", "now",
   [⟨"bash", "x86_64", "baseos", "0", "5.1.8", "6.el9", "0", "5.1.8", "9.el9"⟩,
    ⟨"openssl", "x86_64", "baseos", "1", "3.0.7", "24.el9", "1", "3.0.7", "27.el9"⟩],
   []⟩

/-- The calculator state after the sample computation: the baseos
mapping was loaded at address 0 and memoized, the missing appstream
cache produced a fresh empty mapping at address 1 that is not
memoized. -/
def wSt : CalcState :=
  ⟨2, [("rhel9/x86_64/baseos", 0)], [(1, []), (0, repoPackages)]⟩

end Sample

/-! ## Auxiliary predicates used in statements and proofs -/

namespace RpmUtils

/-- A segment is purely numeric or purely alphabetic (and non-empty);
every segment produced by `_split_version_string` is of this shape. -/
def Homog (s : Seg) : Prop := pyIsDigit s = true ∨ pyIsAlpha s = true

/-- The state invariant of the `_split_version_string` scanning loop:
whatever has been accumulated so far is a homogeneous run matching the
`current_is_digit` flag. -/
def SplitInv (cur : List Char) (cid : Option Bool) : Prop :=
  cur ≠ [] →
    (cur.all Char.isDigit = true ∧ cid = some true) ∨
    (cur.all Char.isAlpha = true ∧ cid = some false)

/-- The epoch shapes admitted by claim C5: a non-negative integer, one of
the sentinels, or a string of decimal digits. -/
def epochWellFormed : FieldVal → Prop
  | .int n => 0 ≤ n
  | .str s => s = "(none)" ∨ s = "" ∨ s = "0" ∨
      (s.data ≠ [] ∧ ∀ c ∈ s.data, c.isDigit = true)

/-- No colon occurs in the text. -/
def noColon (l : List Char) : Bool := l.all (· ≠ ':')

/-- No colon occurs after any dash: on such a tail every candidate
`-(\d+):` split of the with-epoch NEVRA pattern is doomed. -/
def noColonAfterDash : List Char → Bool
  | [] => true
  | c :: r => if c = '-' then noColon r else noColonAfterDash r

/-- A character is a version-string separator: neither digit nor letter. -/
def isSep (c : Char) : Bool := !c.isDigit && !c.isAlpha

end RpmUtils

/-! ## Character-class and segment lemmas -/

namespace RpmUtils

lemma alpha_not_digit {c : Char} (h : c.isAlpha = true) : c.isDigit = false := by
  revert h
  unfold Char.isAlpha Char.isUpper Char.isLower Char.isDigit
  intro h
  rw [Bool.or_eq_true, Bool.and_eq_true, Bool.and_eq_true] at h
  rw [Bool.and_eq_false_iff]
  rcases h with ⟨h1, _⟩ | ⟨h1, _⟩ <;> right <;>
    · rw [decide_eq_true_eq] at h1
      rw [decide_eq_false_iff_not]
      intro hc
      have h1n : 65 ≤ c.val.toNat ∨ 97 ≤ c.val.toNat := by
        first
        | exact Or.inl h1
        | exact Or.inr h1
      have hcn : c.val.toNat ≤ 57 := hc
      omega

lemma digit_not_alpha {c : Char} (h : c.isDigit = true) : c.isAlpha = false := by
  revert h
  unfold Char.isAlpha Char.isUpper Char.isLower Char.isDigit
  intro h
  rw [Bool.and_eq_true, decide_eq_true_eq, decide_eq_true_eq] at h
  have hn : c.val.toNat ≤ 57 := h.2
  rw [Bool.or_eq_false_iff]
  constructor <;>
    · rw [Bool.and_eq_false_iff]
      left
      rw [decide_eq_false_iff_not]
      intro hc
      have hcn : 65 ≤ c.val.toNat ∨ 97 ≤ c.val.toNat := by
        first
        | exact Or.inl hc
        | exact Or.inr hc
      omega

lemma pyIsDigit_not_alpha {s : Seg} (h : pyIsDigit s = true) : pyIsAlpha s = false := by
  rcases s with _ | ⟨c, rest⟩
  · simp [pyIsDigit] at h
  · rw [pyIsDigit, Bool.and_eq_true, List.all_cons, Bool.and_eq_true] at h
    rw [pyIsAlpha, List.all_cons]
    rw [digit_not_alpha h.2.1]
    simp

lemma pyIsAlpha_not_digit {s : Seg} (h : pyIsAlpha s = true) : pyIsDigit s = false := by
  rcases s with _ | ⟨c, rest⟩
  · simp [pyIsAlpha] at h
  · rw [pyIsAlpha, Bool.and_eq_true, List.all_cons, Bool.and_eq_true] at h
    rw [pyIsDigit, List.all_cons]
    rw [alpha_not_digit h.2.1]
    simp

lemma splitInv_emit {cur : List Char} {cid : Option Bool}
    (inv : SplitInv cur cid) (hne : cur ≠ []) : Homog cur := by
  rcases inv hne with ⟨hd, _⟩ | ⟨ha, _⟩
  · exact Or.inl (by rw [pyIsDigit, hd, List.isEmpty_eq_false.mpr hne]; rfl)
  · exact Or.inr (by rw [pyIsAlpha, ha, List.isEmpty_eq_false.mpr hne]; rfl)

lemma splitLoop_homog :
    ∀ (l cur : List Char) (cid : Option Bool), SplitInv cur cid →
      ∀ s ∈ splitLoop l cur cid, Homog s := by
  intro l
  induction l with
  | nil =>
    intro cur cid inv s hs
    rw [splitLoop] at hs
    by_cases hne : cur = []
    · simp [hne] at hs
    · rw [if_neg (by simp [hne])] at hs
      rw [List.mem_singleton] at hs
      exact hs ▸ splitInv_emit inv hne
  | cons c rest ih =>
    intro cur cid inv s hs
    rw [splitLoop] at hs
    by_cases hd : c.isDigit = true
    · rw [if_pos hd] at hs
      by_cases hb : (cid == some false && !cur.isEmpty) = true
      · rw [if_pos hb] at hs
        rw [Bool.and_eq_true, beq_iff_eq, Bool.not_eq_true'] at hb
        rcases List.mem_cons.1 hs with hcur | hrest
        · exact hcur ▸ splitInv_emit inv (List.isEmpty_eq_false.mp hb.2)
        · refine ih [c] (some true) ?_ s hrest
          intro _
          exact Or.inl (by simp [hd])
      · rw [if_neg hb] at hs
        refine ih (cur ++ [c]) (some true) ?_ s hs
        intro _
        left
        refine ⟨?_, rfl⟩
        rw [Bool.and_eq_true, not_and_or] at hb
        rcases hb with h1 | h2
        · rw [beq_iff_eq] at h1
          by_cases hce : cur = []
          · simp [hce, hd]
          · rcases inv hce with ⟨hall, _⟩ | ⟨_, hcid⟩
            · simp [List.all_append, hall, hd]
            · exact absurd hcid h1
        · have h2e : cur = [] := by revert h2; cases cur <;> simp
          simp [h2e, hd]
    · rw [if_neg hd] at hs
      by_cases ha : c.isAlpha = true
      · rw [if_pos ha] at hs
        by_cases hb : (cid == some true && !cur.isEmpty) = true
        · rw [if_pos hb] at hs
          rw [Bool.and_eq_true, beq_iff_eq, Bool.not_eq_true'] at hb
          rcases List.mem_cons.1 hs with hcur | hrest
          · exact hcur ▸ splitInv_emit inv (List.isEmpty_eq_false.mp hb.2)
          · refine ih [c] (some false) ?_ s hrest
            intro _
            exact Or.inr (by simp [ha])
        · rw [if_neg hb] at hs
          refine ih (cur ++ [c]) (some false) ?_ s hs
          intro _
          right
          refine ⟨?_, rfl⟩
          rw [Bool.and_eq_true, not_and_or] at hb
          rcases hb with h1 | h2
          · rw [beq_iff_eq] at h1
            by_cases hce : cur = []
            · simp [hce, ha]
            · rcases inv hce with ⟨_, hcid⟩ | ⟨hall, _⟩
              · exact absurd hcid h1
              · simp [List.all_append, hall, ha]
          · have h2e : cur = [] := by revert h2; cases cur <;> simp
            simp [h2e, ha]
      · rw [if_neg ha] at hs
        by_cases hce : cur.isEmpty = true
        · rw [if_pos hce] at hs
          exact ih [] none (by intro h; exact absurd rfl h) s hs
        · rw [if_neg hce] at hs
          rcases List.mem_cons.1 hs with hcur | hrest
          · exact hcur ▸ splitInv_emit inv (by
              rw [Bool.not_eq_true] at hce
              exact List.isEmpty_eq_false.mp hce)
          · exact ih [] none (by intro h; exact absurd rfl h) s hrest

lemma split_homog (v : String) : ∀ s ∈ _split_version_string v, Homog s :=
  splitLoop_homog v.data [] none (by intro h; exact absurd rfl h)

/-! ## Antisymmetry of the version comparator -/

lemma cmpAlpha_antisym : ∀ a b : List Char, cmpAlpha a b = -cmpAlpha b a := by
  intro a
  induction a with
  | nil => intro b; cases b <;> rfl
  | cons x xs ih =>
    intro b
    cases b with
    | nil => rfl
    | cons y ys =>
      rw [cmpAlpha, cmpAlpha]
      rcases lt_trichotomy x y with h | h | h
      · rw [if_pos h, if_neg (lt_asymm h), if_pos h]
      · rw [if_neg (by rw [h]; exact lt_irrefl y),
          if_neg (by rw [h]; exact lt_irrefl y),
          if_neg (by rw [h]; exact lt_irrefl y),
          if_neg (by rw [h]; exact lt_irrefl y)]
        exact ih ys
      · rw [if_neg (lt_asymm h), if_pos h, if_pos h]
        rfl

lemma cmpSeg_antisym {s1 s2 : Seg} (h1 : Homog s1) (h2 : Homog s2) :
    cmpSeg s1 s2 = -cmpSeg s2 s1 := by
  rcases h1 with hd1 | ha1 <;> rcases h2 with hd2 | ha2
  · simp only [cmpSeg, hd1, hd2, Bool.and_self, if_true]
    split_ifs <;> omega
  · have e1 : pyIsAlpha s1 = false := pyIsDigit_not_alpha hd1
    have e2 : pyIsDigit s2 = false := pyIsAlpha_not_digit ha2
    simp [cmpSeg, hd1, ha2, e1, e2]
  · have e1 : pyIsDigit s1 = false := pyIsAlpha_not_digit ha1
    have e2 : pyIsAlpha s2 = false := pyIsDigit_not_alpha hd2
    simp [cmpSeg, ha1, hd2, e1, e2]
  · have e1 : pyIsDigit s1 = false := pyIsAlpha_not_digit ha1
    have e2 : pyIsDigit s2 = false := pyIsAlpha_not_digit ha2
    simp only [cmpSeg, ha1, ha2, e1, e2, Bool.false_and, Bool.and_self,
      if_true, if_false, Bool.false_eq_true, ite_false]
    exact cmpAlpha_antisym s1 s2

lemma walkPairs_swap :
    ∀ pairs : List (Seg × Seg), (∀ p ∈ pairs, Homog p.1 ∧ Homog p.2) →
      walkPairs (pairs.map Prod.swap) = (walkPairs pairs).map (fun c => -c) := by
  intro pairs
  induction pairs with
  | nil => intro _; rfl
  | cons p rest ih =>
    intro h
    obtain ⟨a, b⟩ := p
    obtain ⟨h1, h2⟩ := h (a, b) (List.mem_cons_self _ rest)
    have hrec := ih (fun q hq => h q (List.mem_cons_of_mem _ hq))
    simp only [List.map_cons, Prod.swap_prod_mk, walkPairs]
    rw [cmpSeg_antisym h2 h1]
    by_cases hz : cmpSeg a b = 0
    · rw [hz]
      simp only [neg_zero, if_pos rfl]
      exact hrec
    · have hz2 : ¬(-cmpSeg a b = 0) := by omega
      rw [if_neg hz2, if_neg hz]
      simp

lemma cvs_antisym (v1 v2 : String) :
    _compare_version_strings v1 v2 = -_compare_version_strings v2 v1 := by
  rw [_compare_version_strings, _compare_version_strings]
  have hzip : (_split_version_string v2).zip (_split_version_string v1)
      = ((_split_version_string v1).zip (_split_version_string v2)).map Prod.swap := by
    rw [List.zip_swap]
  rw [hzip, walkPairs_swap _ (fun p hp => by
    obtain ⟨hp1, hp2⟩ := List.of_mem_zip hp
    exact ⟨split_homog v1 p.1 hp1, split_homog v2 p.2 hp2⟩)]
  cases hw : walkPairs ((_split_version_string v1).zip (_split_version_string v2)) with
  | some c =>
    show c = - -c
    omega
  | none =>
    show (if (_split_version_string v1).length < (_split_version_string v2).length then (-1 : Int)
        else if (_split_version_string v2).length < (_split_version_string v1).length then 1 else 0)
      = -(if (_split_version_string v2).length < (_split_version_string v1).length then (-1 : Int)
        else if (_split_version_string v1).length < (_split_version_string v2).length then 1 else 0)
    split_ifs <;> omega

/-! ## Epoch normalisation lemmas -/

lemma normalizeEpoch_wf {f : FieldVal} (h : epochWellFormed f) :
    ∃ k, normalizeEpoch f = some k := by
  cases f with
  | int n => exact ⟨n, rfl⟩
  | str s =>
    rw [normalizeEpoch]
    by_cases hs : (s = "(none)" || s = "" || s = "0") = true
    · rw [if_pos hs]
      exact ⟨0, rfl⟩
    · rw [if_neg hs]
      rw [Bool.or_eq_true, Bool.or_eq_true, decide_eq_true_eq, decide_eq_true_eq,
        decide_eq_true_eq] at hs
      push_neg at hs
      rcases h with h1 | h1 | h1 | ⟨hne, hdig⟩
      · exact absurd h1 hs.1.1
      · exact absurd h1 hs.1.2
      · exact absurd h1 hs.2
      · rcases hcase : s.data with _ | ⟨c, rest⟩
        · exact absurd hcase hne
        · have hc : c.isDigit = true := hdig c (by rw [hcase]; exact List.mem_cons_self _ _)
          have hcd : ¬c = '-' := by
            intro he
            rw [he] at hc
            exact absurd hc (by decide)
          have hcp : ¬c = '+' := by
            intro he
            rw [he] at hc
            exact absurd hc (by decide)
          have hall : (c :: rest).all Char.isDigit = true := by
            rw [← hcase]
            exact List.all_eq_true.mpr hdig
          refine ⟨(segToNat (c :: rest) : Int), ?_⟩
          rw [pyInt, hcase]
          simp [hcd, hcp, hall]

/-! ## Claim theorems about the version comparator -/

/-- C5: for every pair of installed/available records whose epoch fields
are non-negative integers or numeric/sentinel strings,
`compare_versions(a, b) == -compare_versions(b, a)`: the full
epoch-then-version-then-release comparison is antisymmetric. -/
theorem C5_compare_versions_antisym (a b : VDict)
    (ha : epochWellFormed (a.epoch.getD (.int 0)))
    (hb : epochWellFormed (b.epoch.getD (.int 0))) :
    ∃ m, compare_versions a b = some m ∧ compare_versions b a = some (-m) := by
  obtain ⟨ka, hka⟩ := normalizeEpoch_wf ha
  obtain ⟨kb, hkb⟩ := normalizeEpoch_wf hb
  have hv := cvs_antisym (a.version.getD "0") (b.version.getD "0")
  have hr := cvs_antisym (a.release.getD "0") (b.release.getD "0")
  rw [compare_versions, compare_versions, hka, hkb]
  show ∃ m,
    (if ka < kb then some (-1 : Int)
     else if kb < ka then some 1
     else if _compare_version_strings (a.version.getD "0") (b.version.getD "0") = 0 then
       some (_compare_version_strings (a.release.getD "0") (b.release.getD "0"))
     else some (_compare_version_strings (a.version.getD "0") (b.version.getD "0"))) = some m ∧
    (if kb < ka then some (-1 : Int)
     else if ka < kb then some 1
     else if _compare_version_strings (b.version.getD "0") (a.version.getD "0") = 0 then
       some (_compare_version_strings (b.release.getD "0") (a.release.getD "0"))
     else some (_compare_version_strings (b.version.getD "0") (a.version.getD "0"))) = some (-m)
  rcases lt_trichotomy ka kb with h | h | h
  · refine ⟨-1, ?_, ?_⟩
    · rw [if_pos h]
    · rw [if_neg (by omega), if_pos h]
      norm_num
  · rcases eq_or_ne (_compare_version_strings (a.version.getD "0") (b.version.getD "0")) 0
      with hz | hz
    · have hz2 : _compare_version_strings (b.version.getD "0") (a.version.getD "0") = 0 := by
        rw [hv] at hz
        omega
      refine ⟨_compare_version_strings (a.release.getD "0") (b.release.getD "0"), ?_, ?_⟩
      · rw [if_neg (by omega), if_neg (by omega), if_pos hz]
      · rw [if_neg (by omega), if_neg (by omega), if_pos hz2, hr, neg_neg]
    · have hz2 : ¬_compare_version_strings (b.version.getD "0") (a.version.getD "0") = 0 := by
        rw [hv] at hz
        omega
      refine ⟨_compare_version_strings (a.version.getD "0") (b.version.getD "0"), ?_, ?_⟩
      · rw [if_neg (by omega), if_neg (by omega), if_neg hz]
      · rw [if_neg (by omega), if_neg (by omega), if_neg hz2, hv, neg_neg]
  · refine ⟨1, ?_, ?_⟩
    · rw [if_neg (by omega), if_pos h]
    · rw [if_pos h]

/-- Witness for C5 at a concrete input pair. -/
theorem C5_witness :
    ∃ m, compare_versions ⟨some (.str "0"), some "1.0", some "1.el9"⟩
        ⟨some (.int 1), some "1.0", some "1.el9"⟩ = some m ∧
      compare_versions ⟨some (.int 1), some "1.0", some "1.el9"⟩
        ⟨some (.str "0"), some "1.0", some "1.el9"⟩ = some (-m) :=
  C5_compare_versions_antisym _ _ (Or.inr (Or.inr (Or.inl rfl))) (by norm_num [epochWellFormed])

lemma cmpSeg_digit_alpha {s1 s2 : Seg} (h1 : pyIsDigit s1 = true)
    (h2 : pyIsAlpha s2 = true) : cmpSeg s1 s2 = 1 ∧ cmpSeg s2 s1 = -1 := by
  have e1 : pyIsAlpha s1 = false := pyIsDigit_not_alpha h1
  have e2 : pyIsDigit s2 = false := pyIsAlpha_not_digit h2
  constructor <;> simp [cmpSeg, h1, h2, e1, e2]

lemma walkPairs_append_zeros :
    ∀ (pre rest : List (Seg × Seg)), (∀ p ∈ pre, cmpSeg p.1 p.2 = 0) →
      walkPairs (pre ++ rest) = walkPairs rest := by
  intro pre
  induction pre with
  | nil => intro rest _; rfl
  | cons p pre ih =>
    intro rest h
    obtain ⟨a, b⟩ := p
    have hp : cmpSeg a b = 0 := h (a, b) (List.mem_cons_self _ _)
    rw [List.cons_append, walkPairs]
    simp only [hp, if_pos rfl]
    exact ih rest (fun q hq => h q (List.mem_cons_of_mem _ hq))

/-- C2: whenever the pairwise walk of `_compare_version_strings` reaches
a position where one segment is purely numeric and the other purely
alphabetic (all earlier positions having tied), the side holding the
numeric segment compares greater, whatever the values and the position;
in particular `compare_version_strings("1.a", "1.1") = -1`. -/
theorem C2_mixed_numeric_beats_alpha :
    (∀ (pre : List (Seg × Seg)) (s1 s2 : Seg) (rest : List (Seg × Seg)),
      (∀ p ∈ pre, cmpSeg p.1 p.2 = 0) →
      pyIsDigit s1 = true → pyIsAlpha s2 = true →
      walkPairs (pre ++ (s1, s2) :: rest) = some 1 ∧
      walkPairs (pre ++ (s2, s1) :: rest) = some (-1)) ∧
    _compare_version_strings "1.a" "1.1" = -1 := by
  constructor
  · intro pre s1 s2 rest hpre h1 h2
    obtain ⟨hda, had⟩ := cmpSeg_digit_alpha h1 h2
    rw [walkPairs_append_zeros pre _ hpre, walkPairs_append_zeros pre _ hpre,
      walkPairs, walkPairs]
    simp only [hda, had]
    norm_num
  · decide

/-- Witness for C2 at a concrete mixed pair. -/
theorem C2_witness :
    walkPairs [(['1'], ['a'])] = some 1 ∧ walkPairs [(['a'], ['1'])] = some (-1) := by
  have h := C2_mixed_numeric_beats_alpha.1 [] ['1'] ['a'] []
    (by intro p hp; exact absurd hp (List.not_mem_nil p)) (by decide) (by decide)
  exact ⟨h.1, h.2⟩

lemma splitLoop_eq_nil_iff :
    ∀ (l cur : List Char) (cid : Option Bool),
      splitLoop l cur cid = [] ↔ (cur = [] ∧ ∀ c ∈ l, isSep c = true) := by
  intro l
  induction l with
  | nil =>
    intro cur cid
    rw [splitLoop]
    by_cases hc : cur.isEmpty = true
    · rw [if_pos hc, List.isEmpty_iff] at *
      simp [hc]
    · rw [if_neg hc]
      rw [Bool.not_eq_true, List.isEmpty_eq_false] at hc
      simp [hc]
  | cons c rest ih =>
    intro cur cid
    rw [splitLoop]
    by_cases hd : c.isDigit = true
    · rw [if_pos hd]
      have hsep : isSep c = false := by rw [isSep, hd]; rfl
      by_cases hb : (cid == some false && !cur.isEmpty) = true
      · rw [if_pos hb]
        simp [hsep]
      · rw [if_neg hb, ih]
        simp [hsep]
    · rw [if_neg hd]
      by_cases ha : c.isAlpha = true
      · rw [if_pos ha]
        have hsep : isSep c = false := by rw [isSep, ha]; simp
        by_cases hb : (cid == some true && !cur.isEmpty) = true
        · rw [if_pos hb]
          simp [hsep]
        · rw [if_neg hb, ih]
          simp [hsep]
      · have hsep : isSep c = true := by
          rw [isSep, Bool.not_eq_true] at *
          rw [hd, ha]
          rfl
        by_cases hc : cur.isEmpty = true
        · rw [if_neg ha, if_pos hc, ih]
          rw [List.isEmpty_iff] at hc
          simp [hc, hsep]
        · rw [if_neg ha, if_neg hc]
          rw [Bool.not_eq_true, List.isEmpty_eq_false] at hc
          simp [hc, hsep]

/-- C10: a string consisting only of separator characters (neither
digits nor letters, including the empty string) splits into no segments
at all, compares equal to every other separator-only string, and
compares strictly below every string containing at least one digit or
letter. -/
theorem C10_separator_only_strings (s : String)
    (hs : ∀ c ∈ s.data, c.isDigit = false ∧ c.isAlpha = false) :
    _split_version_string s = [] ∧
    (∀ t : String, (∀ c ∈ t.data, c.isDigit = false ∧ c.isAlpha = false) →
      _compare_version_strings s t = 0) ∧
    (∀ u : String, (∃ c ∈ u.data, c.isDigit = true ∨ c.isAlpha = true) →
      _compare_version_strings s u = -1) := by
  have hsep : ∀ (w : String), (∀ c ∈ w.data, c.isDigit = false ∧ c.isAlpha = false) →
      _split_version_string w = [] := by
    intro w hw
    rw [_split_version_string, splitLoop_eq_nil_iff]
    refine ⟨rfl, fun c hc => ?_⟩
    rw [isSep, (hw c hc).1, (hw c hc).2]
    rfl
  have hnil := hsep s hs
  refine ⟨hnil, fun t ht => ?_, fun u hu => ?_⟩
  · rw [_compare_version_strings, hnil, hsep t ht]
    rfl
  · rcases hcase : _split_version_string u with _ | ⟨a, l⟩
    · obtain ⟨c, hc, hor⟩ := hu
      have := (splitLoop_eq_nil_iff u.data [] none).mp hcase
      have hcs := this.2 c hc
      rw [isSep] at hcs
      rcases hor with h | h <;> rw [h] at hcs <;> simp at hcs
    · rw [_compare_version_strings, hnil, hcase]
      show (if (0 : Nat) < l.length + 1 then (-1 : Int) else if l.length + 1 < 0 then 1 else 0)
        = -1
      rw [if_pos (by omega)]

/-- Witness for C10 at concrete separator-only and alphanumeric strings. -/
theorem C10_witness :
    _split_version_string "._-" = [] ∧
    (∀ t : String, (∀ c ∈ t.data, c.isDigit = false ∧ c.isAlpha = false) →
      _compare_version_strings "._-" t = 0) ∧
    (∀ u : String, (∃ c ∈ u.data, c.isDigit = true ∨ c.isAlpha = true) →
      _compare_version_strings "._-" u = -1) :=
  C10_separator_only_strings "._-" (by decide)

/-! ## Claims about the package-version model -/

/-- C7: comparing two `RPMVersion`s whose name or arch differ never
produces an ordering boolean: `__lt__` signals the contract violation
distinctly by returning `NotImplemented` (modelled as `none`), which
Python escalates to a `TypeError` rather than a silently computed
result. -/
theorem C7_lt_rejects_different_name_arch (a b : RPMVersion)
    (h : a.name ≠ b.name ∨ a.arch ≠ b.arch) :
    RPMVersion.lt a b = none := by
  rw [RPMVersion.lt, if_pos h]

/-- Witness for C7 at a concrete pair with different names. -/
theorem C7_witness :
    RPMVersion.lt ⟨"bash", 0, "5.1.8", "6.el9", "x86_64"⟩
      ⟨"curl", 0, "5.1.8", "6.el9", "x86_64"⟩ = none :=
  C7_lt_rejects_different_name_arch _ _ (Or.inl (by decide))

/-- C4 counterexample: the claim asserts `evr` omits the epoch prefix
when the epoch is 0, but `RPMVersion.evr` renders it unconditionally:
at epoch 0 the result is `"0:1-2"`, not `"1-2"`. -/
theorem C4_counterexample :
    (RPMVersion.mk "pkg" 0 "1" "2" "x86_64").evr = "0:1-2" ∧
    (RPMVersion.mk "pkg" 0 "1" "2" "x86_64").evr ≠ "1-2" := by
  constructor <;> decide

/-- C4 amended: `format_evr` formats `"{epoch}:{version}-{release}"`
exactly when the normalised epoch is strictly positive and
`"{version}-{release}"` otherwise, while the `RPMVersion.evr` property
always includes the epoch prefix, even when the epoch is 0. -/
theorem C4_amended_evr_formatting :
    (∀ v : RPMVersion,
      v.evr = String.mk (pyIntStr v.epoch) ++ ":" ++ v.version ++ "-" ++ v.release) ∧
    (∀ (e : FieldVal) (ver rel : String) (k : Int), normalizeEpoch e = some k →
      format_evr e ver rel =
        some (if 0 < k then String.mk (pyIntStr k) ++ ":" ++ ver ++ "-" ++ rel
          else ver ++ "-" ++ rel)) := by
  constructor
  · intro v
    apply String.ext
    show pyIntStr v.epoch ++ ':' :: v.version.data ++ '-' :: v.release.data
      = ((((String.mk (pyIntStr v.epoch)).data ++ (":" : String).data)
          ++ v.version.data) ++ ("-" : String).data) ++ v.release.data
    simp
  · intro e ver rel k hk
    rw [format_evr, hk]
    show (if 0 < k then some (String.mk (pyIntStr k) ++ ":" ++ ver ++ "-" ++ rel)
        else some (ver ++ "-" ++ rel))
      = some (if 0 < k then String.mk (pyIntStr k) ++ ":" ++ ver ++ "-" ++ rel
        else ver ++ "-" ++ rel)
    split_ifs <;> rfl

/-- Witness for C4 at concrete inputs (epoch 5 and normalised string
epochs 2 and 0). -/
theorem C4_witness :
    (RPMVersion.mk "a" 5 "v" "r" "x").evr
      = String.mk (pyIntStr 5) ++ ":" ++ "v" ++ "-" ++ "r" ∧
    format_evr (.str "2") "1.0" "3" =
      some (if 0 < (2 : Int) then String.mk (pyIntStr 2) ++ ":" ++ "1.0" ++ "-" ++ "3"
        else "1.0" ++ "-" ++ "3") ∧
    format_evr (.str "(none)") "1.0" "3" =
      some (if 0 < (0 : Int) then String.mk (pyIntStr 0) ++ ":" ++ "1.0" ++ "-" ++ "3"
        else "1.0" ++ "-" ++ "3") :=
  ⟨C4_amended_evr_formatting.1 _,
   C4_amended_evr_formatting.2 (.str "2") "1.0" "3" 2 (by decide),
   C4_amended_evr_formatting.2 (.str "(none)") "1.0" "3" 0 (by decide)⟩

/-! ## Decimal printer lemmas -/

lemma digChar_isDigit (n : Nat) : (digChar n).isDigit = true := by
  rcases n with _|_|_|_|_|_|_|_|_|m <;> rfl

lemma digitVal_digChar {n : Nat} (h : n < 10) : digitVal (digChar n) = n := by
  rcases n with _|_|_|_|_|_|_|_|_|m <;> try rfl
  have hm : m = 0 := by omega
  subst hm
  rfl

lemma segToNat_append_single (l : List Char) (c : Char) :
    segToNat (l ++ [c]) = segToNat l * 10 + digitVal c := by
  show List.foldl _ 0 (l ++ [c]) = _
  rw [List.foldl_append]
  rfl

lemma natStrAux_spec :
    ∀ fuel n : Nat, n < fuel →
      (natStrAux fuel n).all Char.isDigit = true ∧ natStrAux fuel n ≠ [] ∧
      segToNat (natStrAux fuel n) = n := by
  intro fuel
  induction fuel with
  | zero => intro n h; omega
  | succ f ih =>
    intro n h
    rw [natStrAux]
    by_cases h10 : n < 10
    · rw [if_pos h10]
      refine ⟨by simp [digChar_isDigit], by simp, ?_⟩
      show 0 * 10 + digitVal (digChar n) = n
      rw [digitVal_digChar h10]
      omega
    · rw [if_neg h10]
      have hdiv : n / 10 < f := by omega
      obtain ⟨ha, hne, hv⟩ := ih (n / 10) hdiv
      refine ⟨?_, by simp, ?_⟩
      · rw [List.all_append, ha]
        simp [digChar_isDigit]
      · rw [segToNat_append_single, hv, digitVal_digChar (by omega)]
        omega

lemma natStrCore_spec (n : Nat) :
    (natStrCore n).all Char.isDigit = true ∧ natStrCore n ≠ [] ∧
      segToNat (natStrCore n) = n :=
  natStrAux_spec (n + 1) n (Nat.lt_succ_self n)

lemma natStrCore_singleton_zero {n : Nat} (h : natStrCore n = ['0']) : n = 0 := by
  have hv := (natStrCore_spec n).2.2
  rw [h] at hv
  have : segToNat ['0'] = 0 := rfl
  omega

lemma string_mk_ne_of_head {l : List Char} {t : String} {c : Char}
    (hl : l.head? = some c) (ht : ¬t.data.head? = some c) : ¬String.mk l = t := by
  intro he
  have hd : l = t.data := congrArg String.data he
  rw [hd] at hl
  exact ht hl

/-- `str(...)` of an epoch value round-trips through the epoch
normalisation: normalising the stringified value gives the same result
as normalising the original value. -/
lemma normalizeEpoch_str_pyStrF (f : FieldVal) :
    normalizeEpoch (.str (pyStrF f)) = normalizeEpoch f := by
  cases f with
  | str s => rfl
  | int n =>
    show normalizeEpoch (.str (String.mk (pyIntStr n))) = some n
    obtain ⟨hallA, hneA, hvA⟩ := natStrCore_spec n.toNat
    obtain ⟨hallB, hneB, hvB⟩ := natStrCore_spec n.natAbs
    rcases lt_trichotomy n 0 with hneg | hzero | hpos
    · rw [pyIntStr, if_pos hneg]
      have h1 : ¬String.mk ('-' :: natStrCore n.natAbs) = "(none)" :=
        string_mk_ne_of_head rfl (by intro hx; exact absurd (Option.some.inj hx) (by decide))
      have h2 : ¬String.mk ('-' :: natStrCore n.natAbs) = "" :=
        string_mk_ne_of_head rfl (by intro hx; exact Option.noConfusion hx)
      have h3 : ¬String.mk ('-' :: natStrCore n.natAbs) = "0" :=
        string_mk_ne_of_head rfl (by intro hx; exact absurd (Option.some.inj hx) (by decide))
      rw [normalizeEpoch]
      rw [if_neg (by rw [decide_eq_false h1, decide_eq_false h2, decide_eq_false h3]; simp)]
      rw [pyInt]
      show (if '-' = '-' then _ else _) = _
      rw [if_pos rfl, if_pos (by
        rw [List.isEmpty_eq_false.mpr hneB, hallB]
        rfl)]
      have : ((segToNat (natStrCore n.natAbs) : Int)) = -n := by
        rw [hvB]
        omega
      rw [this, neg_neg]
    · subst hzero
      decide
    · rw [pyIntStr, if_neg (by omega)]
      rcases hl : natStrCore n.toNat with _ | ⟨c, rest⟩
      · exact absurd hl hneA
      · have hcdig : c.isDigit = true := by
          rw [hl, List.all_cons, Bool.and_eq_true] at hallA
          exact hallA.1
        have h1 : ¬String.mk (c :: rest) = "(none)" := by
          refine string_mk_ne_of_head rfl (fun hx => ?_)
          have hc := Option.some.inj hx
          rw [← hc] at hcdig
          exact absurd hcdig (by decide)
        have h2 : ¬String.mk (c :: rest) = "" :=
          string_mk_ne_of_head rfl (fun hx => Option.noConfusion hx)
        have h3 : ¬String.mk (c :: rest) = "0" := by
          intro hx
          have hd : c :: rest = ['0'] := congrArg String.data hx
          rw [← hl] at hd
          have := natStrCore_singleton_zero hd
          omega
        rw [normalizeEpoch]
        rw [if_neg (by rw [decide_eq_false h1, decide_eq_false h2, decide_eq_false h3]; simp)]
        have hcd : ¬c = '-' := by
          intro he
          rw [he] at hcdig
          exact absurd hcdig (by decide)
        have hcp : ¬c = '+' := by
          intro he
          rw [he] at hcdig
          exact absurd hcdig (by decide)
        have hallC : (c :: rest).all Char.isDigit = true := by
          rw [← hl]
          rw [hl, List.all_cons, Bool.and_eq_true] at hallA
          rw [hl, List.all_cons]
          simp [hallA.1, hallA.2]
        simp only [pyInt]
        rw [if_neg hcd, if_neg hcp, if_pos hallC]
        have hval : segToNat (c :: rest) = n.toNat := by
          rw [← hl]
          exact hvA
        rw [hval]
        congr 1
        omega

end RpmUtils

namespace Calculator

open RpmUtils

/-! ## Claims about the update calculator -/

lemma pySplit_ne_nil (sep : Char) : ∀ l : List Char, pySplit sep l ≠ [] := by
  intro l
  cases l with
  | nil => simp [pySplit]
  | cons c rest =>
    rw [pySplit]
    cases h : pySplit sep rest with
    | nil => simp
    | cons p ps =>
      show (if c = sep then [] :: p :: ps else (c :: p) :: ps) ≠ []
      by_cases hc : c = sep
      · rw [if_pos hc]
        simp
      · rw [if_neg hc]
        simp

lemma pySplit_head (sep : Char) :
    ∀ l : List Char, (pySplit sep l).headD [] = l.takeWhile (fun c => c != sep) := by
  intro l
  induction l with
  | nil => rfl
  | cons c rest ih =>
    rw [pySplit]
    cases h : pySplit sep rest with
    | nil => exact absurd h (pySplit_ne_nil sep rest)
    | cons p ps =>
      show (if c = sep then [] :: p :: ps else (c :: p) :: ps).headD []
        = List.takeWhile (fun c => c != sep) (c :: rest)
      by_cases hc : c = sep
      · rw [if_pos hc, List.takeWhile_cons]
        simp [hc]
      · rw [if_neg hc, List.takeWhile_cons]
        have : (c != sep) = true := by
          rw [bne_iff_ne]
          exact hc
        rw [this]
        simp only [List.headD_cons]
        rw [h, List.headD_cons] at ih
        rw [ih]
        simp

/-- C9: `get_profile_for_os` returns `"rhel"` followed by the portion of
`os_version` before the first `"."`, and its result never depends on
`os_id`. -/
theorem C9_profile_ignores_os_id (os_id os_version : String) :
    get_profile_for_os os_id os_version
      = "rhel" ++ String.mk (os_version.data.takeWhile (fun c => c != '.')) ∧
    ∀ other_id : String,
      get_profile_for_os os_id os_version = get_profile_for_os other_id os_version := by
  have hval : ∀ i : String, get_profile_for_os i os_version
      = "rhel" ++ String.mk (os_version.data.takeWhile (fun c => c != '.')) := by
    intro i
    rw [get_profile_for_os, pySplit_head]
    split_ifs <;> rfl
  exact ⟨hval os_id, fun other_id => (hval os_id).trans (hval other_id).symm⟩

/-- C6: when the backing cache file for a `(profile, arch, channel)`
triple exists, two successive `load_repo_packages` calls on the same
calculator return the identical in-memory mapping object — the same heap
address, not merely an equal value — the first call having stored it in
the `_repo_cache` memo. -/
theorem C6_load_repo_packages_identity (fs : Filesystem) (st : CalcState)
    (profile arch channel : String)
    (h : (fs.cacheFile (profile ++ "/" ++ arch ++ "/" ++ channel)).isSome = true) :
    (load_repo_packages fs (load_repo_packages fs st profile arch channel).2
        profile arch channel).1
      = (load_repo_packages fs st profile arch channel).1 := by
  cases hl : st.repo_cache.lookup (profile ++ "/" ++ arch ++ "/" ++ channel) with
  | some addr =>
    have h1 : load_repo_packages fs st profile arch channel = (addr, st) := by
      simp only [load_repo_packages, hl]
    rw [h1, h1]
  | none =>
    obtain ⟨packages, hp⟩ := Option.isSome_iff_exists.mp h
    have h1 : load_repo_packages fs st profile arch channel
        = (st.nextAddr,
           ⟨st.nextAddr + 1,
            (profile ++ "/" ++ arch ++ "/" ++ channel, st.nextAddr) :: st.repo_cache,
            (st.nextAddr, packages) :: st.heap⟩) := by
      simp only [load_repo_packages, hl, hp, alloc]
    rw [h1]
    simp only [load_repo_packages, List.lookup_cons_self]

/-- Witness for C6 on the sample mirror layout. -/
theorem C6_witness :
    (load_repo_packages Sample.fs
        (load_repo_packages Sample.fs Sample.st0 "rhel9" "x86_64" "baseos").2
        "rhel9" "x86_64" "baseos").1
      = (load_repo_packages Sample.fs Sample.st0 "rhel9" "x86_64" "baseos").1 :=
  C6_load_repo_packages_identity Sample.fs Sample.st0 "rhel9" "x86_64" "baseos" (by decide)

/-- C8: for a host whose manifest is absent, `compute_updates_for_host`
returns (rather than throwing) an `UpdateResult` with
profile/os_id/os_version all `"unknown"`, exactly one error string that
names the missing host, and zero updates. -/
theorem C8_missing_manifest (fs : Filesystem) (now : String) (st : CalcState)
    (host_id : String) (h : fs.manifestFile host_id = none) :
    ∃ r, compute_updates_for_host fs now st host_id = (some r, st) ∧
      r.profile = "unknown" ∧ r.os_id = "unknown" ∧ r.os_version = "unknown" ∧
      r.update_count = 0 ∧
      ∃ e, r.errors = [e] ∧ host_id.data <:+ e.data := by
  refine ⟨⟨host_id, "unknown", "unknown", "unknown", now, [],
    ["Manifest not found for host: " ++ host_id]⟩, ?_, rfl, rfl, rfl, rfl,
    "Manifest not found for host: " ++ host_id, rfl,
    ⟨("Manifest not found for host: " : String).data, rfl⟩⟩
  simp only [compute_updates_for_host, h]

/-- Witness for C8 on a file system with no manifests at all. -/
theorem C8_witness :
    ∃ r, compute_updates_for_host ⟨fun _ => none, fun _ => none⟩ "now" Sample.st0 "host-a"
        = (some r, Sample.st0) ∧
      r.profile = "unknown" ∧ r.os_id = "unknown" ∧ r.os_version = "unknown" ∧
      r.update_count = 0 ∧
      ∃ e, r.errors = [e] ∧ ("host-a" : String).data <:+ e.data :=
  C8_missing_manifest ⟨fun _ => none, fun _ => none⟩ "now" Sample.st0 "host-a" rfl

lemma compare_versions_pyStrF (ie ae : FieldVal) (iv ir av ar : String) :
    compare_versions ⟨some (.str (pyStrF ie)), some iv, some ir⟩
        ⟨some (.str (pyStrF ae)), some av, some ar⟩
      = compare_versions ⟨some ie, some iv, some ir⟩ ⟨some ae, some av, some ar⟩ := by
  rw [compare_versions, compare_versions]
  simp only [Option.getD_some]
  rw [normalizeEpoch_str_pyStrF, normalizeEpoch_str_pyStrF]

lemma processPkg_inv {channel : String} {repo : ChannelMap}
    {acc acc2 : List PackageUpdate} {pkg : PkgEntry}
    (h : processPkg channel repo acc pkg = some acc2)
    (hacc : ∀ u ∈ acc, UpdateOk u) : ∀ u ∈ acc2, UpdateOk u := by
  simp only [processPkg] at h
  split at h
  case _ name arch =>
    split at h
    · obtain rfl := Option.some.inj h
      exact hacc
    · split at h
      · obtain rfl := Option.some.inj h
        exact hacc
      · rename_i available hlook
        split at h
        · exact absurd h (by simp)
        · rename_i b havail
          split at h
          · obtain rfl := Option.some.inj h
            intro u hu
            rcases List.mem_append.mp hu with hu1 | hu2
            · exact hacc u hu1
            · rw [List.mem_singleton] at hu2
              subst hu2
              rename_i hb
              rw [is_update_available] at havail
              cases hc : compare_versions
                  ⟨some (pkg.epoch.getD (.str "0")), some (pkg.version.getD "0"),
                    some (pkg.release.getD "0")⟩
                  ⟨some (available.epoch.getD (.str "0")), some (available.version.getD "0"),
                    some (available.release.getD "0")⟩ with
              | none =>
                rw [hc] at havail
                exact absurd havail (by simp)
              | some cint =>
                rw [hc] at havail
                have havail2 : decide (cint < 0) = b := Option.some.inj havail
                refine ⟨cint, ?_, ?_⟩
                · show compare_versions
                    ⟨some (.str (pyStrF (pkg.epoch.getD (.str "0")))), _, _⟩
                    ⟨some (.str (pyStrF (available.epoch.getD (.str "0")))), _, _⟩ = some cint
                  rw [compare_versions_pyStrF]
                  exact hc
                · exact of_decide_eq_true (by rw [havail2, hb])
          · obtain rfl := Option.some.inj h
            exact hacc
  case _ =>
    obtain rfl := Option.some.inj h
    exact hacc

lemma foldlM_inv {channel : String} {repo : ChannelMap} :
    ∀ (pkgs : List PkgEntry) (acc acc2 : List PackageUpdate),
      List.foldlM (processPkg channel repo) acc pkgs = some acc2 →
      (∀ u ∈ acc, UpdateOk u) → ∀ u ∈ acc2, UpdateOk u := by
  intro pkgs
  induction pkgs with
  | nil =>
    intro acc acc2 h hacc
    obtain rfl : acc = acc2 := Option.some.inj h
    exact hacc
  | cons p ps ih =>
    intro acc acc2 h hacc
    rw [List.foldlM_cons] at h
    cases hp : processPkg channel repo acc p with
    | none =>
      rw [hp] at h
      exact absurd h (by simp)
    | some a1 =>
      rw [hp] at h
      exact ih a1 acc2 h (processPkg_inv hp hacc)

lemma processChannels_inv {fs : Filesystem} {profile : String} {packages : List PkgEntry} :
    ∀ (chans : List String) (st : CalcState) (acc res : List PackageUpdate) (st' : CalcState),
      processChannels fs profile packages chans st acc = (some res, st') →
      (∀ u ∈ acc, UpdateOk u) → ∀ u ∈ res, UpdateOk u := by
  intro chans
  induction chans with
  | nil =>
    intro st acc res st' h hacc
    rw [processChannels] at h
    simp only [Prod.mk.injEq] at h
    obtain rfl : acc = res := Option.some.inj h.1
    exact hacc
  | cons ch more ih =>
    intro st acc res st' h hacc
    rw [processChannels] at h
    split at h
    · exact ih _ _ _ _ h hacc
    · split at h
      · simp only [Prod.mk.injEq] at h
        exact absurd h.1 (by simp)
      · rename_i acc2 heq
        exact ih _ _ _ _ h (foldlM_inv packages acc acc2 heq hacc)

/-- C1: whenever `compute_updates_for_host` returns a result, every
`PackageUpdate` it contains satisfies the strict-update invariant:
`compare_versions` on the carried installed triple against the carried
available triple is strictly negative; no entry is ever appended for a
zero or positive comparison. -/
theorem C1_update_entries_strictly_newer (fs : Filesystem) (now : String)
    (st : CalcState) (host_id : String) (res : UpdateResult) (st' : CalcState)
    (h : compute_updates_for_host fs now st host_id = (some res, st')) :
    ∀ u ∈ res.updates,
      ∃ c, compare_versions (installedDict u) (availableDict u) = some c ∧ c < 0 := by
  simp only [compute_updates_for_host] at h
  split at h
  · simp only [Prod.mk.injEq] at h
    obtain rfl : _ = res := Option.some.inj h.1
    intro u hu
    exact absurd hu (List.not_mem_nil u)
  · rename_i manifest hman
    split at h
    · simp only [Prod.mk.injEq] at h
      obtain rfl : _ = res := Option.some.inj h.1
      intro u hu
      exact absurd hu (List.not_mem_nil u)
    · split at h
      · simp only [Prod.mk.injEq] at h
        exact absurd h.1 (by simp)
      · rename_i ups heq
        simp only [Prod.mk.injEq] at h
        obtain rfl : _ = res := Option.some.inj h.1
        intro u hu
        have hfull : processChannels fs
            (get_profile_for_os (manifest.os_id.getD "unknown")
              (manifest.os_version.getD "unknown"))
            manifest.packages ["baseos", "appstream"] st []
            = (some ups,
               (processChannels fs
                 (get_profile_for_os (manifest.os_id.getD "unknown")
                   (manifest.os_version.getD "unknown"))
                 manifest.packages ["baseos", "appstream"] st []).2) := by
          rw [← heq]
        exact processChannels_inv _ _ _ _ _ hfull
          (fun v hv => absurd hv (List.not_mem_nil v)) u hu

/-- Witness for C1 on the sample host: the computation succeeds and both
emitted updates carry strictly smaller installed triples. -/
theorem C1_witness :
    compute_updates_for_host Sample.fs "now" Sample.st0 "test-host-001"
        = (some Sample.wRes, Sample.wSt) ∧
    ∀ u ∈ Sample.wRes.updates,
      ∃ c, compare_versions (installedDict u) (availableDict u) = some c ∧ c < 0 :=
  ⟨by decide,
   C1_update_entries_strictly_newer Sample.fs "now" Sample.st0 "test-host-001"
     Sample.wRes Sample.wSt (by decide)⟩

namespace RpmUtils

/-! ## The NEVRA greedy matcher: failure and success lemmas (claim C3) -/

lemma takeDigitRun_append :
    ∀ (ds : List Char), (∀ c ∈ ds, c.isDigit = true) →
      ∀ (c0 : Char), c0.isDigit = false → ∀ r,
        takeDigitRun (ds ++ c0 :: r) = (ds, c0 :: r) := by
  intro ds
  induction ds with
  | nil =>
    intro _ c0 hc0 r
    rw [List.nil_append, takeDigitRun, if_neg (by rw [hc0]; exact Bool.false_ne_true)]
  | cons d ds ih =>
    intro hall c0 hc0 r
    have hd : d.isDigit = true := hall d (List.mem_cons_self _ _)
    rw [List.cons_append, takeDigitRun, if_pos hd,
      ih (fun c hc => hall c (List.mem_cons_of_mem _ hc)) c0 hc0 r]

lemma splitAtFirst_append (sep : Char) :
    ∀ (p : List Char), (∀ c ∈ p, ¬c = sep) → ∀ r,
      splitAtFirst sep (p ++ sep :: r) = some (p, r) := by
  intro p
  induction p with
  | nil =>
    intro _ r
    rw [List.nil_append, splitAtFirst, if_pos rfl]
  | cons c p ih =>
    intro hall r
    rw [List.cons_append, splitAtFirst,
      if_neg (hall c (List.mem_cons_self _ _)),
      ih (fun d hd => hall d (List.mem_cons_of_mem _ hd)) r]

lemma contains_eq_false_of_forall {l : List Char} {x : Char}
    (h : ∀ c ∈ l, ¬c = x) : l.contains x = false := by
  rw [← Bool.not_eq_true]
  intro hc
  exact h x (List.mem_of_elem_eq_true hc) rfl

lemma matchDotPlusEnd_of_no_newline {l : List Char} (hne : l ≠ [])
    (hnl : ∀ c ∈ l, ¬c = '\n') : matchDotPlusEnd l = some l := by
  rw [matchDotPlusEnd, if_neg (by rw [contains_eq_false_of_forall hnl]; exact Bool.false_ne_true),
    if_neg (by rw [List.isEmpty_eq_false.mpr hne]; exact Bool.false_ne_true)]

lemma tryTailE_success (name E ver rel arch : List Char)
    (hEne : E ≠ []) (hEall : E.all Char.isDigit = true)
    (hver : ver ≠ []) (hverD : ∀ c ∈ ver, ¬c = '-')
    (hrel : rel ≠ []) (hrelDot : ∀ c ∈ rel, ¬c = '.')
    (harch : arch ≠ []) (harchNL : ∀ c ∈ arch, ¬c = '\n') :
    tryTailE name (E ++ ':' :: (ver ++ '-' :: (rel ++ '.' :: arch)))
      = some ⟨String.mk name, Int.ofNat (segToNat E), String.mk ver,
          String.mk rel, String.mk arch⟩ := by
  have hrun := takeDigitRun_append E (fun c hc => List.all_eq_true.mp hEall c hc) ':'
    (by decide) (ver ++ '-' :: (rel ++ '.' :: arch))
  rw [tryTailE, hrun]
  rw [if_neg (by rw [List.isEmpty_eq_false.mpr hEne]; exact Bool.false_ne_true)]
  show (match splitAtFirst '-' (ver ++ '-' :: (rel ++ '.' :: arch)) with
    | some q =>
      if q.1.isEmpty then none
      else
        match splitAtFirst '.' q.2 with
        | some w =>
          if w.1.isEmpty then none
          else
            match matchDotPlusEnd w.2 with
            | some arch2 =>
              some (RPMVersion.mk (String.mk name) (Int.ofNat (segToNat E)) (String.mk q.1)
                (String.mk w.1) (String.mk arch2))
            | none => none
        | none => none
    | none => none) = _
  rw [splitAtFirst_append '-' ver hverD (rel ++ '.' :: arch)]
  show (if ver.isEmpty then none
    else
      match splitAtFirst '.' (rel ++ '.' :: arch) with
      | some w =>
        if w.1.isEmpty then none
        else
          match matchDotPlusEnd w.2 with
          | some arch2 =>
            some (RPMVersion.mk (String.mk name) (Int.ofNat (segToNat E)) (String.mk ver)
              (String.mk w.1) (String.mk arch2))
          | none => none
      | none => none) = _
  rw [if_neg (by rw [List.isEmpty_eq_false.mpr hver]; exact Bool.false_ne_true),
    splitAtFirst_append '.' rel hrelDot arch]
  show (if rel.isEmpty then none
    else
      match matchDotPlusEnd arch with
      | some arch2 =>
        some (RPMVersion.mk (String.mk name) (Int.ofNat (segToNat E)) (String.mk ver)
          (String.mk rel) (String.mk arch2))
      | none => none) = _
  rw [if_neg (by rw [List.isEmpty_eq_false.mpr hrel]; exact Bool.false_ne_true),
    matchDotPlusEnd_of_no_newline harch harchNL]

lemma takeDigitRun_rest_mem :
    ∀ (t : List Char) (c : Char) (r : List Char),
      (takeDigitRun t).2 = c :: r → c ∈ t := by
  intro t
  induction t with
  | nil =>
    intro c r h
    exact absurd h (by rw [takeDigitRun]; exact fun hx => List.noConfusion hx)
  | cons d t ih =>
    intro c r h
    rw [takeDigitRun] at h
    by_cases hd : d.isDigit = true
    · rw [if_pos hd] at h
      exact List.mem_cons_of_mem _ (ih c r h)
    · rw [if_neg hd] at h
      rw [List.cons.injEq] at h
      rw [← h.1]
      exact List.mem_cons_self _ _

lemma tryTailE_noColon (name t : List Char) (h : noColon t = true) :
    tryTailE name t = none := by
  rw [tryTailE]
  split
  · rfl
  · rename_i hne
    rcases hr : (takeDigitRun t).2 with _ | ⟨c, r⟩
    · rfl
    · have hmem := takeDigitRun_rest_mem t c r hr
      have hcc : ¬c = ':' := by
        have := List.all_eq_true.mp h c hmem
        rwa [decide_eq_true_eq] at this
      cases c with
      | mk val valid =>
        split
        · rename_i heq
          rw [List.cons.injEq] at heq
          exact absurd heq.1 (by intro hx; exact hcc (by rw [hx]))
        · rfl

lemma noColon_nca : ∀ l : List Char, noColon l = true → noColonAfterDash l = true := by
  intro l
  induction l with
  | nil => intro _; rfl
  | cons c r ih =>
    intro h
    have hr : noColon r = true := by
      rw [noColon, List.all_cons, Bool.and_eq_true] at h
      exact h.2
    rw [noColonAfterDash]
    by_cases hc : c = '-'
    · rw [if_pos hc]
      exact hr
    · rw [if_neg hc]
      exact ih hr

lemma nca_append_left :
    ∀ (p q : List Char), (∀ c ∈ p, ¬c = '-') → noColonAfterDash q = true →
      noColonAfterDash (p ++ q) = true := by
  intro p
  induction p with
  | nil => intro q _ hq; exact hq
  | cons c p ih =>
    intro q hp hq
    rw [List.cons_append, noColonAfterDash,
      if_neg (hp c (List.mem_cons_self _ _))]
    exact ih q (fun d hd => hp d (List.mem_cons_of_mem _ hd)) hq

lemma noColon_of_forall {l : List Char} (h : ∀ c ∈ l, ¬c = ':') :
    noColon l = true := by
  rw [noColon, List.all_eq_true]
  intro c hc
  rw [decide_eq_true_eq]
  exact h c hc

lemma goE_fail : ∀ (t : List Char), noColonAfterDash t = true →
    ∀ acc, goE acc t = none := by
  intro t
  induction t with
  | nil => intro _ acc; rfl
  | cons c r ih =>
    intro h acc
    have hr : noColonAfterDash r = true := by
      rw [noColonAfterDash] at h
      by_cases hc : c = '-'
      · rw [if_pos hc] at h
        exact noColon_nca r h
      · rw [if_neg hc] at h
        exact h
    show (match goE (acc ++ [c]) r with
      | some x => some x
      | none =>
        if (c = '-' && !acc.isEmpty && !acc.contains '\n') = true then tryTailE acc r
        else none) = none
    rw [ih hr (acc ++ [c])]
    show (if (c = '-' && !acc.isEmpty && !acc.contains '\n') = true then tryTailE acc r
      else none) = none
    split
    · rename_i hg
      rw [Bool.and_eq_true, Bool.and_eq_true] at hg
      have hc : c = '-' := by
        have := hg.1.1
        rwa [decide_eq_true_eq] at this
      rw [noColonAfterDash, if_pos hc] at h
      exact tryTailE_noColon acc r h
    · rfl

lemma goE_succ (E ver rel arch : List Char)
    (hEne : E ≠ []) (hEall : E.all Char.isDigit = true)
    (hver : ver ≠ []) (hverD : ∀ c ∈ ver, ¬c = '-')
    (hrel : rel ≠ []) (hrelDot : ∀ c ∈ rel, ¬c = '.')
    (hrelCol : ∀ c ∈ rel, ¬c = ':')
    (harch : arch ≠ []) (harchCol : ∀ c ∈ arch, ¬c = ':')
    (harchNL : ∀ c ∈ arch, ¬c = '\n') :
    ∀ (suf pre : List Char), pre ++ suf ≠ [] → (∀ c ∈ pre ++ suf, ¬c = '\n') →
      goE pre (suf ++ '-' :: (E ++ ':' :: (ver ++ '-' :: (rel ++ '.' :: arch))))
        = some ⟨String.mk (pre ++ suf), Int.ofNat (segToNat E), String.mk ver,
            String.mk rel, String.mk arch⟩ := by
  have hnca : noColonAfterDash (E ++ ':' :: (ver ++ '-' :: (rel ++ '.' :: arch))) = true := by
    have hsh : E ++ ':' :: (ver ++ '-' :: (rel ++ '.' :: arch))
        = (E ++ ':' :: ver) ++ ('-' :: (rel ++ '.' :: arch)) := by
      simp [List.append_assoc]
    rw [hsh]
    refine nca_append_left _ _ ?_ ?_
    · intro c hc
      rcases List.mem_append.mp hc with hc1 | hc2
      · have := List.all_eq_true.mp hEall c hc1
        intro hx
        rw [hx] at this
        exact absurd this (by decide)
      · rcases List.mem_cons.mp hc2 with hc3 | hc4
        · rw [hc3]
          decide
        · exact hverD c hc4
    · rw [noColonAfterDash, if_pos rfl]
      refine noColon_of_forall ?_
      intro c hc
      rcases List.mem_append.mp hc with hc1 | hc2
      · exact hrelCol c hc1
      · rcases List.mem_cons.mp hc2 with hc3 | hc4
        · rw [hc3]
          decide
        · exact harchCol c hc4
  intro suf
  induction suf with
  | nil =>
    intro pre hne hnl
    rw [List.append_nil] at hne hnl ⊢
    show (match goE (pre ++ ['-']) (E ++ ':' :: (ver ++ '-' :: (rel ++ '.' :: arch))) with
      | some x => some x
      | none =>
        if (('-' : Char) = '-' && !pre.isEmpty && !pre.contains '\n') = true then
          tryTailE pre (E ++ ':' :: (ver ++ '-' :: (rel ++ '.' :: arch)))
        else none) = _
    rw [goE_fail _ hnca (pre ++ ['-'])]
    have hcond : (('-' : Char) = '-' && !pre.isEmpty && !pre.contains '\n') = true := by
      rw [decide_eq_true rfl, List.isEmpty_eq_false.mpr hne,
        contains_eq_false_of_forall hnl]
      rfl
    show (if (('-' : Char) = '-' && !pre.isEmpty && !pre.contains '\n') = true then
      tryTailE pre (E ++ ':' :: (ver ++ '-' :: (rel ++ '.' :: arch))) else none) = _
    rw [if_pos hcond]
    exact tryTailE_success pre E ver rel arch hEne hEall hver hverD hrel hrelDot harch harchNL
  | cons c suf ih =>
    intro pre hne hnl
    show (match goE (pre ++ [c]) (suf ++ '-' :: (E ++ ':' :: (ver ++ '-' :: (rel ++ '.' :: arch)))) with
      | some x => some x
      | none =>
        if (c = '-' && !pre.isEmpty && !pre.contains '\n') = true then
          tryTailE pre (suf ++ '-' :: (E ++ ':' :: (ver ++ '-' :: (rel ++ '.' :: arch))))
        else none) = _
    have hassoc : (pre ++ [c]) ++ suf = pre ++ c :: suf := by
      simp
    rw [ih (pre ++ [c]) (by rw [hassoc]; simp) (by rw [hassoc]; exact hnl)]
    show some (RPMVersion.mk (String.mk ((pre ++ [c]) ++ suf)) (Int.ofNat (segToNat E))
      (String.mk ver) (String.mk rel) (String.mk arch)) = _
    rw [hassoc]

/-- C3 counterexample: the round trip fails for a perfectly ordinary
`RPMVersion` whose release contains a dot — the release/arch split
happens at the first dot, not the last one. -/
theorem C3_counterexample :
    parse_nevra (RPMVersion.mk "bash" 0 "5.1.8" "6.el9" "x86_64").nevra
      ≠ some (RPMVersion.mk "bash" 0 "5.1.8" "6.el9" "x86_64") ∧
    parse_nevra (RPMVersion.mk "bash" 0 "5.1.8" "6.el9" "x86_64").nevra
      = some (RPMVersion.mk "bash" 0 "5.1.8" "6" "el9.x86_64") := by
  constructor <;> decide

/-- C3 amended: `parse_nevra(x.nevra)` reconstructs `x` when the name is
non-empty and newline-free, the epoch is non-negative, the version is
non-empty and contains no `-`, the release is non-empty and contains no
`.` and no `:`, and the arch is non-empty and contains no `:` and no
newline. -/
theorem C3_amended_nevra_roundtrip (v : RPMVersion)
    (hname : v.name ≠ "") (hnameNL : ∀ c ∈ v.name.data, ¬c = '\n')
    (hepoch : 0 ≤ v.epoch)
    (hver : v.version ≠ "") (hverD : ∀ c ∈ v.version.data, ¬c = '-')
    (hrel : v.release ≠ "") (hrelDot : ∀ c ∈ v.release.data, ¬c = '.')
    (hrelCol : ∀ c ∈ v.release.data, ¬c = ':')
    (harch : v.arch ≠ "") (harchCol : ∀ c ∈ v.arch.data, ¬c = ':')
    (harchNL : ∀ c ∈ v.arch.data, ¬c = '\n') :
    parse_nevra v.nevra = some v := by
  obtain ⟨hEall, hEne, hEval⟩ := natStrCore_spec v.epoch.toNat
  have hdataNe : ∀ (s : String), s ≠ "" → s.data ≠ [] := by
    intro s hs hd
    exact hs (String.ext hd)
  have hE : pyIntStr v.epoch = natStrCore v.epoch.toNat := by
    rw [pyIntStr, if_neg (by omega)]
  have hdata0 : v.nevra.data
      = v.name.data ++ '-' :: pyIntStr v.epoch ++ ':' :: v.version.data
        ++ '-' :: v.release.data ++ '.' :: v.arch.data := rfl
  have hdata : v.nevra.data
      = v.name.data ++ '-' :: (natStrCore v.epoch.toNat
          ++ ':' :: (v.version.data ++ '-' :: (v.release.data ++ '.' :: v.arch.data))) := by
    rw [hdata0, hE]
    simp [List.append_assoc]
  have hgo : goE [] v.nevra.data = some v := by
    rw [hdata]
    have := goE_succ (natStrCore v.epoch.toNat) v.version.data v.release.data v.arch.data
      hEne hEall (hdataNe _ hver) hverD (hdataNe _ hrel) hrelDot hrelCol
      (hdataNe _ harch) harchCol harchNL v.name.data []
      (by rw [List.nil_append]; exact hdataNe _ hname)
      (by rw [List.nil_append]; exact hnameNL)
    rw [List.nil_append] at this
    rw [this]
    congr 1
    have hepochEq : Int.ofNat (segToNat (natStrCore v.epoch.toNat)) = v.epoch := by
      rw [hEval]
      exact Int.toNat_of_nonneg hepoch
    cases v
    rw [hepochEq]
  rw [parse_nevra, hgo]

/-- Witness for the amended C3 on a realistic dot-free-release package. -/
theorem C3_witness :
    parse_nevra (RPMVersion.mk "python3-rpm" 2 "4.16.1.3" "27el9" "x86_64").nevra
      = some (RPMVersion.mk "python3-rpm" 2 "4.16.1.3" "27el9" "x86_64") :=
  C3_amended_nevra_roundtrip _ (by decide) (by decide) (by decide) (by decide)
    (by decide) (by decide) (by decide) (by decide) (by decide) (by decide) (by decide)

end RpmUtils
